import Mathlib

/-!
Verification of the acquisition/codec/scheduler core of glscopeclient
(`OscilloscopeWindow`).  The definitions below are a shallow embedding of the
C++ source: byte buffers become `List Nat` (one entry per byte), machine
integers become `Nat`/`Int` with explicit two's-complement reinterpretation,
instrument I/O becomes an explicit command/event trace, and the few
potentially-divergent loops are modelled with an explicit fuel parameter so
that non-termination is observable as `none` for every fuel value.
-/

namespace GlScope

/-! ## Waveform codec (`DoLoadWaveformDataForScope`, part_001 lines 1421-1599) -/

/-- Little-endian interpretation of a byte list as an unsigned natural number. -/
def leNat (bs : List Nat) : Nat := bs.foldr (fun b acc => b + 256 * acc) 0

/-- Reinterpret an unsigned 64-bit value as a signed two's-complement int64,
as the `reinterpret_cast<int64_t*>` at lines 1526-1529 does. -/
def toInt64 (v : Nat) : Int := if v < 2 ^ 63 then (v : Int) else (v : Int) - 2 ^ 64

/-- The `k` bytes of the buffer starting at byte position `a`. -/
def slice (buf : List Nat) (a k : Nat) : List Nat := (buf.drop a).take k

/-- Read the little-endian signed int64 stored at byte position `a`. -/
def readInt64 (buf : List Nat) (a : Nat) : Int := toInt64 (leNat (slice buf a 8))

/-- Size in bytes of one sample value: a 4-byte float for analog waveforms, a
1-byte bool for digital ones (lines 1513-1516, 1564-1567).  Sample values are
kept as the raw little-endian words read from the file: the C++ code
reinterpret-casts the bytes, so the bit pattern is the sample. -/
def valueSize (analog : Bool) : Nat := if analog then 4 else 1

/-- Size in bytes of one sparsev1 record: an 8-byte offset, an 8-byte
duration, then the value (`samplesize`, lines 1512-1516). -/
def sampleSize (analog : Bool) : Nat := 2 * 8 + valueSize analog

/-- Signed array indexing: the C++ endpoint check indexes the sample vectors
with an `int64_t`.  A negative index or an index at or past the end is out of
bounds, which we record as `none`. -/
def getI {α : Type} (l : List α) (i : Int) : Option α :=
  if i < 0 then none else l[i.toNat]?

/-- Decoded waveform arrays.  `densePacked` is the final `m_densePacked` flag:
the capture objects handed to the decoder are freshly allocated with the flag
clear (part_001 lines 1315-1321), so after a sparsev1 decode the flag equals
the result of the endpoint check at lines 1546-1554.  `none` records that
computing the check performed an out-of-bounds array access (possible when the
buffer holds no complete record). -/
structure Waveform where
  offsets : List Int
  durations : List Int
  samples : List Nat
  densePacked : Option Bool
deriving Repr, DecidableEq

/-- The sparsev1 dense-packed endpoint check, lines 1548-1554:
`m_offsets[0] == 0 && m_offsets[nlast] == nlast && m_durations[nlast] == 1`,
with C++ short-circuit evaluation of `&&` and out-of-bounds accesses
surfacing as `none`. -/
def densePackedCheck (offsets durations : List Int) (nlast : Int) : Option Bool :=
  match getI offsets 0 with
  | none => none
  | some o0 =>
    if o0 = 0 then
      match getI offsets nlast with
      | none => none
      | some ol =>
        if ol = nlast then
          match getI durations nlast with
          | none => none
          | some dl => some (decide (dl = 1))
        else some false
    else some false

/-- Offset field of sparsev1 record `j` (line 1528). -/
def sparseOffsetAt (analog : Bool) (buf : List Nat) (j : Nat) : Int :=
  readInt64 buf (j * sampleSize analog)

/-- Duration field of sparsev1 record `j` (line 1529). -/
def sparseDurationAt (analog : Bool) (buf : List Nat) (j : Nat) : Int :=
  readInt64 buf (j * sampleSize analog + 8)

/-- Value field of sparsev1 record `j`, as a raw little-endian word
(lines 1532-1541). -/
def sparseValueAt (analog : Bool) (buf : List Nat) (j : Nat) : Nat :=
  leNat (slice buf (j * sampleSize analog + 16) (valueSize analog))

/-- Decoder for a sparsev1 byte buffer (lines 1509-1555): `nsamples` is the
buffer length divided by the record size (integer division, line 1517), record
`j` is read at byte offset `j * samplesize`, and the dense-packed endpoint
check runs on the decoded arrays with `nlast = nsamples - 1` as an `int64_t`. -/
def decodeSparse (analog : Bool) (buf : List Nat) : Waveform :=
  let n := buf.length / sampleSize analog
  let offsets := (List.range n).map (sparseOffsetAt analog buf)
  let durations := (List.range n).map (sparseDurationAt analog buf)
  { offsets := offsets
    durations := durations
    samples := (List.range n).map (sparseValueAt analog buf)
    densePacked := densePackedCheck offsets durations ((n : Int) - 1) }

/-- Decoder for a densev1 byte buffer (lines 1557-1582): `nsamples` is the
buffer length divided by the value size, the values are copied verbatim, and
offsets and durations are reconstructed as `offset[i] = i`, `duration[i] = 1`
with the dense-packed flag set unconditionally (line 1560). -/
def decodeDense (analog : Bool) (buf : List Nat) : Waveform :=
  let n := buf.length / valueSize analog
  { offsets := (List.range n).map (fun (i : Nat) => (i : Int))
    durations := List.replicate n 1
    samples := (List.range n).map (fun i => leNat (slice buf (i * valueSize analog) (valueSize analog)))
    densePacked := some true }

/-- Reference view of a byte buffer as consecutive `k`-byte records, dropping
a partial trailing record.  Defined by plain structural recursion on a fuel
bound so it evaluates by kernel reduction. -/
def byteChunksAux (k : Nat) : Nat → List Nat → List (List Nat)
  | 0, _ => []
  | fuel + 1, buf =>
    if buf.length < k then [] else buf.take k :: byteChunksAux k fuel (buf.drop k)

/-- Reference view of a byte buffer as consecutive `k`-byte records. -/
def byteChunks (k : Nat) (buf : List Nat) : List (List Nat) :=
  byteChunksAux k buf.length buf

/-! ### Codec lemmas -/

theorem sampleSize_eq (analog : Bool) : sampleSize analog = 16 + valueSize analog := rfl

theorem valueSize_pos (analog : Bool) : 1 ≤ valueSize analog := by
  cases analog <;> decide

theorem sampleSize_ge (analog : Bool) : 17 ≤ sampleSize analog := by
  cases analog <;> decide

theorem slice_zero (l : List Nat) (k : Nat) : slice l 0 k = l.take k := by
  simp [slice]

theorem slice_of_drop (l : List Nat) (a b k : Nat) :
    slice (l.drop b) a k = slice l (b + a) k := by
  simp [slice, List.drop_drop, Nat.add_comm]

theorem take_slice (l : List Nat) (a k m : Nat) (h : k ≤ m) :
    (slice l a m).take k = slice l a k := by
  simp [slice, List.take_take, Nat.min_eq_left h]

theorem drop_slice (l : List Nat) (a b m : Nat) :
    (slice l a m).drop b = slice l (a + b) (m - b) := by
  simp [slice, List.drop_take, List.drop_drop, Nat.add_comm]

theorem slice_take_of_le (l : List Nat) (m a k : Nat) (h : a + k ≤ m) :
    slice (l.take m) a k = slice l a k := by
  simp only [slice, List.drop_take]
  rw [List.take_take, Nat.min_eq_left (by omega)]

/-- The index-driven sample loop reads exactly the consecutive `k`-byte
records of the buffer: record `j` is the slice at byte offset `j * k`. -/
theorem byteChunksAux_eq (k : Nat) (hk : 1 ≤ k) :
    ∀ (fuel : Nat) (buf : List Nat), buf.length ≤ fuel →
      byteChunksAux k fuel buf =
        (List.range (buf.length / k)).map (fun j => slice buf (j * k) k) := by
  intro fuel
  induction fuel with
  | zero =>
    intro buf h
    have hb : buf = [] := List.length_eq_zero.mp (by omega)
    subst hb
    simp [byteChunksAux]
  | succ fuel ih =>
    intro buf h
    by_cases hlt : buf.length < k
    · rw [Nat.div_eq_of_lt hlt]
      simp [byteChunksAux, hlt]
    · have hkb : k ≤ buf.length := by omega
      have hdiv : buf.length / k = (buf.length - k) / k + 1 :=
        Nat.div_eq_sub_div (by omega) hkb
      have hdl : (buf.drop k).length = buf.length - k := by simp
      rw [hdiv]
      simp only [byteChunksAux, if_neg hlt]
      rw [ih (buf.drop k) (by omega), List.range_succ_eq_map]
      simp only [List.map_cons, List.map_map, hdl]
      apply List.cons_eq_cons.mpr
      constructor
      · rw [Nat.zero_mul, slice_zero]
      · apply List.map_congr_left
        intro j _
        simp only [Function.comp]
        rw [slice_of_drop, Nat.succ_mul, Nat.add_comm (j * k) k]

theorem byteChunks_eq (k : Nat) (hk : 1 ≤ k) (buf : List Nat) :
    byteChunks k buf = (List.range (buf.length / k)).map (fun j => slice buf (j * k) k) :=
  byteChunksAux_eq k hk buf.length buf le_rfl

theorem map_slice_one (l : List Nat) :
    (List.range l.length).map (fun i => leNat (slice l (i * 1) 1)) = l := by
  induction l with
  | nil => simp
  | cons a l ih =>
    simp only [List.length_cons, List.range_succ_eq_map, List.map_cons, List.map_map]
    apply List.cons_eq_cons.mpr
    constructor
    · simp [slice, leNat]
    · have hcong : (List.range l.length).map
          ((fun i => leNat (slice (a :: l) (i * 1) 1)) ∘ Nat.succ) =
          (List.range l.length).map (fun i => leNat (slice l (i * 1) 1)) := by
        apply List.map_congr_left
        intro j _
        simp only [Function.comp]
        have : slice (a :: l) (Nat.succ j * 1) 1 = slice l (j * 1) 1 := by
          simp [slice, Nat.succ_mul]
        rw [this]
      rw [hcong, ih]

/-- C6: densev1 decoding law.  The decoded sample count is the buffer length
divided by the value size, the sample words are exactly the consecutive
value-size byte groups of the buffer (for digital waveforms, byte-for-byte the
buffer itself), every offset equals its sample index, every duration is 1, and
the waveform is marked dense-packed. -/
theorem dense_decode_reconstruction (analog : Bool) (buf : List Nat) :
    (decodeDense analog buf).samples.length = buf.length / valueSize analog ∧
    (decodeDense analog buf).offsets.length = buf.length / valueSize analog ∧
    (decodeDense analog buf).durations.length = buf.length / valueSize analog ∧
    (decodeDense analog buf).samples = (byteChunks (valueSize analog) buf).map leNat ∧
    (∀ j, j < buf.length / valueSize analog →
      (decodeDense analog buf).offsets[j]? = some (j : Int) ∧
      (decodeDense analog buf).durations[j]? = some 1) ∧
    (analog = false → (decodeDense analog buf).samples = buf) ∧
    (decodeDense analog buf).densePacked = some true := by
  refine ⟨?_, ?_, ?_, ?_, ?_, ?_, rfl⟩
  · simp only [decodeDense, List.length_map, List.length_range]
  · simp only [decodeDense, List.length_map, List.length_range]
  · simp only [decodeDense, List.length_replicate]
  · rw [byteChunks_eq _ (valueSize_pos analog), List.map_map]
    rfl
  · intro j hj
    constructor
    · simp only [decodeDense, List.getElem?_map, List.getElem?_range hj, Option.map_some]
      rfl
    · simp only [decodeDense, List.getElem?_replicate, if_pos hj]
  · intro ha
    subst ha
    have h1 : valueSize false = 1 := rfl
    simp only [decodeDense, h1, Nat.div_one]
    exact map_slice_one buf

/-- C7: sparsev1 decoding law.  The decoded sample count is the buffer length
divided by the fixed record size (16 bytes of offset/duration plus the value
size, integer division), each decoded offset/duration/value equals the
corresponding field of its 16-plus-value-size-byte record, and the decode
depends only on the complete records: a partial trailing record is silently
dropped (decoding the buffer truncated to whole records gives the same
waveform). -/
theorem sparse_decode_records (analog : Bool) (buf : List Nat) :
    (decodeSparse analog buf).offsets.length = buf.length / sampleSize analog ∧
    (decodeSparse analog buf).durations.length = buf.length / sampleSize analog ∧
    (decodeSparse analog buf).samples.length = buf.length / sampleSize analog ∧
    (decodeSparse analog buf).offsets =
      (byteChunks (sampleSize analog) buf).map (fun r => toInt64 (leNat (r.take 8))) ∧
    (decodeSparse analog buf).durations =
      (byteChunks (sampleSize analog) buf).map (fun r => toInt64 (leNat ((r.drop 8).take 8))) ∧
    (decodeSparse analog buf).samples =
      (byteChunks (sampleSize analog) buf).map (fun r => leNat (r.drop 16)) ∧
    decodeSparse analog (buf.take (buf.length / sampleSize analog * sampleSize analog)) =
      decodeSparse analog buf := by
  have hss : 17 ≤ sampleSize analog := sampleSize_ge analog
  have hchunks := byteChunks_eq (sampleSize analog) (by omega) buf
  refine ⟨by simp [decodeSparse], by simp [decodeSparse], by simp [decodeSparse], ?_, ?_, ?_, ?_⟩
  · rw [hchunks, List.map_map]
    simp only [decodeSparse]
    apply List.map_congr_left
    intro j _
    simp only [Function.comp, sparseOffsetAt, readInt64]
    rw [take_slice _ _ _ _ (by omega)]
  · rw [hchunks, List.map_map]
    simp only [decodeSparse]
    apply List.map_congr_left
    intro j _
    simp only [Function.comp, sparseDurationAt, readInt64]
    rw [drop_slice, take_slice _ _ _ _ (by omega)]
  · rw [hchunks, List.map_map]
    simp only [decodeSparse]
    apply List.map_congr_left
    intro j _
    simp only [Function.comp, sparseValueAt]
    rw [drop_slice]
    have : sampleSize analog - 16 = valueSize analog := by
      rw [sampleSize_eq]; omega
    rw [this]
  · have hm : buf.length / sampleSize analog * sampleSize analog ≤ buf.length :=
      Nat.div_mul_le_self _ _
    have hlen : (buf.take (buf.length / sampleSize analog * sampleSize analog)).length =
        buf.length / sampleSize analog * sampleSize analog := by
      simp [Nat.min_eq_left hm]
    have hn : (buf.take (buf.length / sampleSize analog * sampleSize analog)).length /
        sampleSize analog = buf.length / sampleSize analog := by
      rw [hlen, Nat.mul_div_cancel _ (by omega)]
    have hb : ∀ j, j < buf.length / sampleSize analog → ∀ a k,
        a + k ≤ sampleSize analog →
        slice (buf.take (buf.length / sampleSize analog * sampleSize analog))
          (j * sampleSize analog + a) k = slice buf (j * sampleSize analog + a) k := by
      intro j hj a k hak
      apply slice_take_of_le
      have : (j + 1) * sampleSize analog ≤ buf.length / sampleSize analog * sampleSize analog :=
        Nat.mul_le_mul_right _ (by omega)
      calc j * sampleSize analog + a + k ≤ j * sampleSize analog + sampleSize analog := by omega
        _ = (j + 1) * sampleSize analog := by ring
        _ ≤ _ := this
    have ho : (List.range (buf.length / sampleSize analog)).map
        (sparseOffsetAt analog (buf.take (buf.length / sampleSize analog * sampleSize analog))) =
        (List.range (buf.length / sampleSize analog)).map (sparseOffsetAt analog buf) := by
      apply List.map_congr_left
      intro j hj
      simp only [sparseOffsetAt, readInt64]
      have := hb j (List.mem_range.mp hj) 0 8 (by omega)
      rw [Nat.add_zero] at this
      rw [this]
    have hd : (List.range (buf.length / sampleSize analog)).map
        (sparseDurationAt analog (buf.take (buf.length / sampleSize analog * sampleSize analog))) =
        (List.range (buf.length / sampleSize analog)).map (sparseDurationAt analog buf) := by
      apply List.map_congr_left
      intro j hj
      simp only [sparseDurationAt, readInt64]
      rw [hb j (List.mem_range.mp hj) 8 8 (by omega)]
    have hv : (List.range (buf.length / sampleSize analog)).map
        (sparseValueAt analog (buf.take (buf.length / sampleSize analog * sampleSize analog))) =
        (List.range (buf.length / sampleSize analog)).map (sparseValueAt analog buf) := by
      apply List.map_congr_left
      intro j hj
      simp only [sparseValueAt]
      rw [hb j (List.mem_range.mp hj) 16 (valueSize analog) (by rw [sampleSize_eq])]
    simp only [decodeSparse, hn, ho, hd, hv]

theorem getD_elem (l : List Int) (i : Nat) (h : i < l.length) : l[i]? = some (l.getD i 0) := by
  rw [List.getD_eq_getElem?_getD]
  cases hq : l[i]? with
  | none =>
    simp only [List.getElem?_eq_none_iff] at hq
    omega
  | some a => rfl

/-- With `n ≥ 1` samples the endpoint check stays in bounds and yields a
boolean. -/
theorem densePackedCheck_isSome (offs durs : List Int) (n : Nat)
    (h1 : offs.length = n) (h2 : durs.length = n) (hn : 1 ≤ n) :
    ∃ b, densePackedCheck offs durs ((n : Int) - 1) = some b := by
  have ht : ((n : Int) - 1).toNat = n - 1 := by omega
  have hneg : ¬ ((n : Int) - 1 < 0) := by omega
  have e0 : getI offs 0 = some (offs.getD 0 0) := by
    simp only [getI, if_neg (by omega : ¬ (0 : Int) < 0), Int.toNat_zero]
    exact getD_elem offs 0 (by omega)
  have e1 : getI offs ((n : Int) - 1) = some (offs.getD (n - 1) 0) := by
    simp only [getI, if_neg hneg, ht]
    exact getD_elem offs (n - 1) (by omega)
  have e2 : getI durs ((n : Int) - 1) = some (durs.getD (n - 1) 0) := by
    simp only [getI, if_neg hneg, ht]
    exact getD_elem durs (n - 1) (by omega)
  simp only [densePackedCheck, e0, e1, e2]
  split_ifs <;> exact ⟨_, rfl⟩

/-- With `n ≥ 1` samples the endpoint check succeeds exactly when sample 0
has offset 0 and the last sample has offset `n - 1` and duration 1. -/
theorem densePackedCheck_true_iff (offs durs : List Int) (n : Nat)
    (h1 : offs.length = n) (h2 : durs.length = n) (hn : 1 ≤ n) :
    densePackedCheck offs durs ((n : Int) - 1) = some true ↔
      (offs.getD 0 0 = 0 ∧ offs.getD (n - 1) 0 = (n : Int) - 1 ∧
        durs.getD (n - 1) 0 = 1) := by
  have ht : ((n : Int) - 1).toNat = n - 1 := by omega
  have hneg : ¬ ((n : Int) - 1 < 0) := by omega
  have e0 : getI offs 0 = some (offs.getD 0 0) := by
    simp only [getI, if_neg (by omega : ¬ (0 : Int) < 0), Int.toNat_zero]
    exact getD_elem offs 0 (by omega)
  have e1 : getI offs ((n : Int) - 1) = some (offs.getD (n - 1) 0) := by
    simp only [getI, if_neg hneg, ht]
    exact getD_elem offs (n - 1) (by omega)
  have e2 : getI durs ((n : Int) - 1) = some (durs.getD (n - 1) 0) := by
    simp only [getI, if_neg hneg, ht]
    exact getD_elem durs (n - 1) (by omega)
  simp only [densePackedCheck, e0, e1, e2]
  split_ifs with h0 hl
  · constructor
    · intro h
      refine ⟨h0, hl, ?_⟩
      have hd : decide (durs.getD (n - 1) 0 = 1) = true := by
        exact Option.some.inj h
      exact of_decide_eq_true hd
    · rintro ⟨-, -, h3⟩
      rw [h3]
      simp
  · constructor
    · intro h
      exact absurd (Option.some.inj h) (by simp)
    · rintro ⟨-, h2x, -⟩
      exact absurd h2x hl
  · constructor
    · intro h
      exact absurd (Option.some.inj h) (by simp)
    · rintro ⟨h0x, -, -⟩
      exact absurd h0x h0

theorem offsets_lb (o d : Nat → Int) (n : Nat)
    (hstep : ∀ j, j + 1 < n → o j + d j ≤ o (j + 1))
    (hdur : ∀ j, j < n → 1 ≤ d j) :
    ∀ m, m < n → o 0 + m ≤ o m := by
  intro m
  induction m with
  | zero => intro _; simp
  | succ m ih =>
    intro h
    have h1 := hstep m (by omega)
    have h2 := hdur m (by omega)
    have h3 := ih (by omega)
    push_cast
    push_cast at h3
    omega

theorem offsets_gap_lb (o d : Nat → Int) (n g : Nat)
    (hstep : ∀ j, j + 1 < n → o j + d j ≤ o (j + 1))
    (hdur : ∀ j, j < n → 1 ≤ d j)
    (hg : g + 1 < n) (hgap : o g + d g + 1 ≤ o (g + 1)) :
    ∀ m, g + 1 ≤ m → m < n → o 0 + m + 1 ≤ o m := by
  intro m
  induction m with
  | zero => intro h1 _; omega
  | succ m ih =>
    intro hge h
    by_cases hm : m = g
    · subst hm
      have hb := offsets_lb o d n hstep hdur m (by omega)
      have h2 := hdur m (by omega)
      push_cast
      push_cast at hb
      omega
    · have h1 := hstep m (by omega)
      have h2 := hdur m (by omega)
      have h3 := ih (by omega) (by omega)
      push_cast
      push_cast at h3
      omega

/-- Classification of the endpoint check on arrays of `n ≥ 1` samples: it is
exactly the three-endpoint condition; a fully dense waveform passes it; and a
waveform obeying the monotonic/non-overlap invariant with positive durations
that has a gap or overlap between two consecutive samples fails it. -/
theorem densePackedCheck_classify (offs durs : List Int) (n : Nat)
    (h1 : offs.length = n) (h2 : durs.length = n) (hn : 1 ≤ n) :
    (densePackedCheck offs durs ((n : Int) - 1) = some true ↔
      (offs.getD 0 0 = 0 ∧ offs.getD (n - 1) 0 = (n : Int) - 1 ∧
        durs.getD (n - 1) 0 = 1)) ∧
    (offs = (List.range n).map (fun (i : Nat) => (i : Int)) →
      durs = List.replicate n 1 →
      densePackedCheck offs durs ((n : Int) - 1) = some true) ∧
    ((∀ j, j + 1 < n → offs.getD j 0 + durs.getD j 0 ≤ offs.getD (j + 1) 0) →
      (∀ j, j < n → 1 ≤ durs.getD j 0) →
      (∃ j, j + 1 < n ∧ offs.getD j 0 + durs.getD j 0 ≠ offs.getD (j + 1) 0) →
      densePackedCheck offs durs ((n : Int) - 1) = some false) := by
  have hiff := densePackedCheck_true_iff offs durs n h1 h2 hn
  refine ⟨hiff, ?_, ?_⟩
  · intro ho hd
    apply hiff.mpr
    have g0 : offs.getD 0 0 = 0 := by
      rw [ho, List.getD_eq_getElem?_getD, List.getElem?_map, List.getElem?_range (by omega)]
      rfl
    have g1 : offs.getD (n - 1) 0 = (n : Int) - 1 := by
      rw [ho, List.getD_eq_getElem?_getD, List.getElem?_map, List.getElem?_range (by omega)]
      show ((n - 1 : Nat) : Int) = (n : Int) - 1
      omega
    have g2 : durs.getD (n - 1) 0 = 1 := by
      rw [hd, List.getD_eq_getElem?_getD, List.getElem?_replicate, if_pos (by omega)]
      rfl
    exact ⟨g0, g1, g2⟩
  · rintro hstep hdur ⟨g, hg, hne⟩
    have hgap : offs.getD g 0 + durs.getD g 0 + 1 ≤ offs.getD (g + 1) 0 := by
      have := hstep g hg
      omega
    have hb := offsets_gap_lb (fun j => offs.getD j 0) (fun j => durs.getD j 0) n g
      hstep hdur hg hgap (n - 1) (by omega) (by omega)
    have hb2 : offs.getD 0 0 + ((n - 1 : Nat) : Int) + 1 ≤ offs.getD (n - 1) 0 := hb
    obtain ⟨b, hsome⟩ := densePackedCheck_isSome offs durs n h1 h2 hn
    cases b with
    | true =>
      exfalso
      obtain ⟨p1, p2, -⟩ := hiff.mp hsome
      rw [p1, p2] at hb2
      omega
    | false => exact hsome

/-- C9: the endpoint check of the sparsev1 decoder is in bounds exactly when
the buffer holds at least one complete record; with zero complete records the
decoded arrays are empty, `nlast` is `-1`, and the check performs an
out-of-bounds access. -/
theorem sparse_endpoint_check_safety (analog : Bool) (buf : List Nat) :
    (1 ≤ buf.length / sampleSize analog →
      ∃ b, (decodeSparse analog buf).densePacked = some b) ∧
    (buf.length / sampleSize analog = 0 →
      (decodeSparse analog buf).offsets = [] ∧
      (decodeSparse analog buf).durations = [] ∧
      ((buf.length / sampleSize analog : Int) - 1 = -1) ∧
      (decodeSparse analog buf).densePacked = none) := by
  constructor
  · intro hn
    exact densePackedCheck_isSome _ _ (buf.length / sampleSize analog)
      (by simp [decodeSparse]) (by simp [decodeSparse]) hn
  · intro h0
    refine ⟨?_, ?_, by omega, ?_⟩
    · simp [decodeSparse, h0]
    · simp [decodeSparse, h0]
    · simp [decodeSparse, h0, densePackedCheck, getI]

/-- C5 counterexample input: a digital sparsev1 buffer of three records
`(offset 0, duration 1)`, `(offset 1, duration 0)`, `(offset 2, duration 1)`.
Offsets are monotonic and the samples are non-overlapping, yet there is a gap
between the zero-length sample 1 and sample 2. -/
def gapBuf : List Nat :=
  [0, 0, 0, 0, 0, 0, 0, 0,  1, 0, 0, 0, 0, 0, 0, 0,  0,
   1, 0, 0, 0, 0, 0, 0, 0,  0, 0, 0, 0, 0, 0, 0, 0,  0,
   2, 0, 0, 0, 0, 0, 0, 0,  1, 0, 0, 0, 0, 0, 0, 0,  0]

/-- C5 as stated is false: `gapBuf` decodes to offsets `[0, 1, 2]` and
durations `[1, 0, 1]` — monotonic, non-overlapping, with a gap after the
zero-length second sample — yet the endpoint check marks it dense-packed. -/
theorem sparse_densePacked_gap_cex :
    (decodeSparse false gapBuf).offsets = [0, 1, 2] ∧
    (decodeSparse false gapBuf).durations = [1, 0, 1] ∧
    (decodeSparse false gapBuf).densePacked = some true := by decide

/-- C5 (amended): for a sparsev1 buffer with at least one complete record,
the waveform is marked dense-packed iff sample 0 has offset 0 and the last
sample has offset `nsamples - 1` and duration 1; a buffer decoding to offsets
`0, 1, ..., n-1` with all durations 1 is marked dense-packed; and under the
invariant that samples are monotonic, non-overlapping and of duration at
least 1, any gap or overlap between consecutive samples prevents the
dense-packed marking. -/
theorem sparse_densePacked_detection (analog : Bool) (buf : List Nat)
    (hn : 1 ≤ buf.length / sampleSize analog) :
    ((decodeSparse analog buf).densePacked = some true ↔
      ((decodeSparse analog buf).offsets.getD 0 0 = 0 ∧
        (decodeSparse analog buf).offsets.getD (buf.length / sampleSize analog - 1) 0 =
          (buf.length / sampleSize analog : Int) - 1 ∧
        (decodeSparse analog buf).durations.getD (buf.length / sampleSize analog - 1) 0 = 1)) ∧
    ((decodeSparse analog buf).offsets =
        (List.range (buf.length / sampleSize analog)).map (fun (i : Nat) => (i : Int)) →
      (decodeSparse analog buf).durations = List.replicate (buf.length / sampleSize analog) 1 →
      (decodeSparse analog buf).densePacked = some true) ∧
    ((∀ j, j + 1 < buf.length / sampleSize analog →
        (decodeSparse analog buf).offsets.getD j 0 +
          (decodeSparse analog buf).durations.getD j 0 ≤
          (decodeSparse analog buf).offsets.getD (j + 1) 0) →
      (∀ j, j < buf.length / sampleSize analog →
        1 ≤ (decodeSparse analog buf).durations.getD j 0) →
      (∃ j, j + 1 < buf.length / sampleSize analog ∧
        (decodeSparse analog buf).offsets.getD j 0 +
          (decodeSparse analog buf).durations.getD j 0 ≠
          (decodeSparse analog buf).offsets.getD (j + 1) 0) →
      (decodeSparse analog buf).densePacked = some false) := by
  have hp : (decodeSparse analog buf).densePacked =
      densePackedCheck (decodeSparse analog buf).offsets (decodeSparse analog buf).durations
        ((buf.length / sampleSize analog : Int) - 1) := rfl
  obtain ⟨p1, p2, p3⟩ := densePackedCheck_classify (decodeSparse analog buf).offsets
    (decodeSparse analog buf).durations (buf.length / sampleSize analog)
    (by simp [decodeSparse]) (by simp [decodeSparse]) hn
  exact ⟨by rw [hp]; exact p1, fun a b => by rw [hp]; exact p2 a b,
    fun a b c => by rw [hp]; exact p3 a b c⟩

/-- C5 amended-claim witness: a one-record digital buffer with offset 0 and
duration 1 decodes dense-packed, via the amended theorem. -/
theorem sparse_densePacked_detection_witness :
    (decodeSparse false [0, 0, 0, 0, 0, 0, 0, 0, 1, 0, 0, 0, 0, 0, 0, 0, 1]).densePacked =
      some true :=
  (sparse_densePacked_detection false
      [0, 0, 0, 0, 0, 0, 0, 0, 1, 0, 0, 0, 0, 0, 0, 0, 1] (by decide)).2.1
    (by decide) (by decide)

/-- C9 witness: a 20-byte analog buffer holds one complete record, so the
check is in bounds there; the empty buffer holds none and the check goes out
of bounds. -/
theorem sparse_endpoint_check_safety_witness :
    (∃ b, (decodeSparse true
      [0, 0, 0, 0, 0, 0, 0, 0, 1, 0, 0, 0, 0, 0, 0, 0, 0, 0, 0, 0]).densePacked = some b) ∧
    (decodeSparse true []).densePacked = none :=
  ⟨(sparse_endpoint_check_safety true
      [0, 0, 0, 0, 0, 0, 0, 0, 1, 0, 0, 0, 0, 0, 0, 0, 0, 0, 0, 0]).1 (by decide),
    ((sparse_endpoint_check_safety true []).2 (by decide)).2.2.2⟩

/-- C6 witness: the two-byte digital buffer `[7, 8]` decodes to the samples
`[7, 8]` byte-for-byte, via the densev1 reconstruction law. -/
theorem dense_decode_reconstruction_witness :
    (decodeDense false [7, 8]).samples = [7, 8] :=
  (dense_decode_reconstruction false [7, 8]).2.2.2.2.2.1 rfl

/-! ## Filter graph scheduler (`RefreshAllFilters`, part_001 lines 3215-3284)

The leveling loop keeps a working set of filter nodes; each iteration moves
into the current block every node none of whose inputs is still in the
working set (inputs that are not filters in the working set — physical scope
channels — are always satisfied), and appends the block to the block list.
The C++ loop runs until the working set is empty, which on an acyclic graph
happens after at most `card` iterations; we give the loop an explicit
iteration bound and show that bound is enough. -/

variable {Node : Type} [DecidableEq Node]

/-- One iteration of the block-building loop (lines 3244-3264): the nodes of
the working set all of whose inputs are outside the working set. -/
def stepBlock (inputs : Node → List Node) (working : Finset Node) : Finset Node :=
  working.filter (fun w => ∀ i ∈ inputs w, i ∉ working)

/-- The block list produced by the leveling loop (lines 3242-3271), with an
explicit bound on the number of iterations. -/
def levelLoop (inputs : Node → List Node) : Nat → Finset Node → List (Finset Node)
  | 0, _ => []
  | fuel + 1, working =>
    if working = ∅ then []
    else stepBlock inputs working ::
      levelLoop inputs fuel (working \ stepBlock inputs working)

/-- The working set left after running the leveling loop a bounded number of
iterations; the C++ loop terminates exactly when this is empty. -/
def levelRemaining (inputs : Node → List Node) : Nat → Finset Node → Finset Node
  | 0, working => working
  | fuel + 1, working =>
    if working = ∅ then ∅
    else levelRemaining inputs fuel (working \ stepBlock inputs working)

/-- The evaluation trace of the block-evaluation loop (lines 3273-3279):
blocks are visited in list order, every node of a block (in whatever
within-block order the parallel loop uses) being evaluated while that block
is current.  Each trace entry is (block index, node). -/
def evalTraceFrom : List (List Node) → Nat → List (Nat × Node)
  | [], _ => []
  | b :: bs, k => b.map (fun x => (k, x)) ++ evalTraceFrom bs (k + 1)

theorem mem_stepBlock {inputs : Node → List Node} {working : Finset Node} {x : Node} :
    x ∈ stepBlock inputs working ↔ x ∈ working ∧ ∀ i ∈ inputs x, i ∉ working := by
  simp [stepBlock]

/-- On a graph admitting a rank function (an acyclic dependency graph), a
nonempty working set always yields a nonempty block: a node of minimal rank
qualifies. -/
theorem stepBlock_nonempty (inputs : Node → List Node) (working : Finset Node)
    (rk : Node → Nat)
    (hrk : ∀ c ∈ working, ∀ i ∈ inputs c, i ∈ working → rk i < rk c)
    (hne : working.Nonempty) : (stepBlock inputs working).Nonempty := by
  obtain ⟨m, hm, hmin⟩ := working.exists_min_image rk hne
  refine ⟨m, mem_stepBlock.mpr ⟨hm, ?_⟩⟩
  intro i hi hiw
  have h1 := hrk m hm i hi hiw
  have h2 := hmin i hiw
  omega

theorem levelLoop_blocks_subset (inputs : Node → List Node) :
    ∀ (fuel : Nat) (working : Finset Node),
      ∀ b ∈ levelLoop inputs fuel working, b ⊆ working := by
  intro fuel
  induction fuel with
  | zero => intro working b hb; simp [levelLoop] at hb
  | succ fuel ih =>
    intro working b hb
    by_cases hw : working = ∅
    · simp [levelLoop, hw] at hb
    · simp only [levelLoop, if_neg hw, List.mem_cons] at hb
      rcases hb with hb | hb
      · subst hb
        exact Finset.filter_subset _ _
      · exact (ih _ b hb).trans (Finset.sdiff_subset)

theorem levelRemaining_empty (inputs : Node → List Node) (rk : Node → Nat) :
    ∀ (fuel : Nat) (working : Finset Node),
      (∀ c ∈ working, ∀ i ∈ inputs c, i ∈ working → rk i < rk c) →
      working.card ≤ fuel →
      levelRemaining inputs fuel working = ∅ := by
  intro fuel
  induction fuel with
  | zero =>
    intro working _ hcard
    have : working = ∅ := Finset.card_eq_zero.mp (by omega)
    simpa [levelRemaining] using this
  | succ fuel ih =>
    intro working hrk hcard
    by_cases hw : working = ∅
    · simp [levelRemaining, hw]
    · simp only [levelRemaining, if_neg hw]
      have hne : working.Nonempty := Finset.nonempty_iff_ne_empty.mpr hw
      have hsb : (stepBlock inputs working).Nonempty :=
        stepBlock_nonempty inputs working rk hrk hne
      have hss : working \ stepBlock inputs working ⊂ working :=
        Finset.sdiff_ssubset (Finset.filter_subset _ _) hsb
      have hcard2 : (working \ stepBlock inputs working).card < working.card :=
        Finset.card_lt_card hss
      apply ih
      · intro c hc i hi hiw
        exact hrk c (Finset.mem_sdiff.mp hc).1 i hi (Finset.mem_sdiff.mp hiw).1
      · omega

theorem levelLoop_count_one (inputs : Node → List Node) (rk : Node → Nat) :
    ∀ (fuel : Nat) (working : Finset Node),
      (∀ c ∈ working, ∀ i ∈ inputs c, i ∈ working → rk i < rk c) →
      working.card ≤ fuel →
      ∀ x ∈ working,
        (levelLoop inputs fuel working).countP (fun b => decide (x ∈ b)) = 1 := by
  intro fuel
  induction fuel with
  | zero =>
    intro working _ hcard x hx
    have : working = ∅ := Finset.card_eq_zero.mp (by omega)
    subst this
    simp at hx
  | succ fuel ih =>
    intro working hrk hcard x hx
    have hw : working ≠ ∅ := by
      intro h
      subst h
      simp at hx
    simp only [levelLoop, if_neg hw, List.countP_cons]
    have hne : working.Nonempty := Finset.nonempty_iff_ne_empty.mpr hw
    have hsb : (stepBlock inputs working).Nonempty :=
      stepBlock_nonempty inputs working rk hrk hne
    have hcard2 : (working \ stepBlock inputs working).card < working.card :=
      Finset.card_lt_card (Finset.sdiff_ssubset (Finset.filter_subset _ _) hsb)
    by_cases hxs : x ∈ stepBlock inputs working
    · have hrest : (levelLoop inputs fuel (working \ stepBlock inputs working)).countP
          (fun b => decide (x ∈ b)) = 0 := by
        rw [List.countP_eq_zero]
        intro b hb
        have hsub := levelLoop_blocks_subset inputs fuel _ b hb
        simp only [decide_eq_true_eq]
        intro hxb
        exact (Finset.mem_sdiff.mp (hsub hxb)).2 hxs
      simp [hrest, hxs]
    · have hxw : x ∈ working \ stepBlock inputs working :=
        Finset.mem_sdiff.mpr ⟨hx, hxs⟩
      have hrest := ih (working \ stepBlock inputs working)
        (fun c hc i hi hiw =>
          hrk c (Finset.mem_sdiff.mp hc).1 i hi (Finset.mem_sdiff.mp hiw).1)
        (by omega) x hxw
      simp [hrest, hxs]

/-- For every dependency edge, the block of the input strictly precedes the
block of the consumer. -/
theorem levelLoop_edge_lt (inputs : Node → List Node) :
    ∀ (fuel : Nat) (working : Finset Node) (c i : Node), i ∈ inputs c →
      ∀ (ki kc : Nat) (bi bc : Finset Node),
        (levelLoop inputs fuel working)[ki]? = some bi → i ∈ bi →
        (levelLoop inputs fuel working)[kc]? = some bc → c ∈ bc →
        ki < kc := by
  intro fuel
  induction fuel with
  | zero =>
    intro working c i _ ki kc bi bc hki _ _ _
    simp [levelLoop] at hki
  | succ fuel ih =>
    intro working c i hedge ki kc bi bc hki hibi hkc hcbc
    by_cases hw : working = ∅
    · simp [levelLoop, hw] at hki
    · simp only [levelLoop, if_neg hw] at hki hkc
      have hiW : i ∈ working := by
        cases ki with
        | zero =>
          simp only [List.getElem?_cons_zero] at hki
          exact (Finset.mem_filter.mp ((Option.some.inj hki) ▸ hibi)).1
        | succ ki2 =>
          simp only [List.getElem?_cons_succ] at hki
          obtain ⟨hlt, hg⟩ := List.getElem?_eq_some.mp hki
          have hsub := levelLoop_blocks_subset inputs fuel _ bi
            (hg ▸ List.getElem_mem hlt)
          exact (Finset.mem_sdiff.mp (hsub hibi)).1
      have hkc0 : kc ≠ 0 := by
        intro h
        subst h
        simp only [List.getElem?_cons_zero] at hkc
        have hcstep : c ∈ stepBlock inputs working := (Option.some.inj hkc) ▸ hcbc
        exact (mem_stepBlock.mp hcstep).2 i hedge hiW
      obtain ⟨kc2, rfl⟩ : ∃ kc2, kc = kc2 + 1 := ⟨kc - 1, by omega⟩
      cases ki with
      | zero => omega
      | succ ki2 =>
        simp only [List.getElem?_cons_succ] at hki hkc
        have := ih (working \ stepBlock inputs working) c i hedge ki2 kc2 bi bc
          hki hibi hkc hcbc
        omega

omit [DecidableEq Node] in
theorem evalTraceFrom_fst_ge :
    ∀ (bs : List (List Node)) (k : Nat), ∀ p ∈ evalTraceFrom bs k, k ≤ p.1 := by
  intro bs
  induction bs with
  | nil => intro k p hp; simp [evalTraceFrom] at hp
  | cons b bs ih =>
    intro k p hp
    simp only [evalTraceFrom, List.mem_append, List.mem_map] at hp
    rcases hp with ⟨x, -, rfl⟩ | hp
    · exact le_rfl
    · have := ih (k + 1) p hp
      omega

omit [DecidableEq Node] in
/-- The evaluation loop visits blocks in order of non-decreasing block
index. -/
theorem evalTraceFrom_sorted :
    ∀ (bs : List (List Node)) (k : Nat),
      (evalTraceFrom bs k).Pairwise (fun p q => p.1 ≤ q.1) := by
  intro bs
  induction bs with
  | nil => intro k; simp [evalTraceFrom]
  | cons b bs ih =>
    intro k
    simp only [evalTraceFrom]
    apply List.pairwise_append.mpr
    refine ⟨?_, ih (k + 1), ?_⟩
    · refine List.pairwise_map.mpr ?_
      induction b with
      | nil => exact List.Pairwise.nil
      | cons a t iht => exact List.Pairwise.cons (fun _ _ => le_rfl) iht
    · intro p hp q hq
      obtain ⟨x, -, rfl⟩ := List.mem_map.mp hp
      have := evalTraceFrom_fst_ge bs (k + 1) q hq
      omega

/-- C1: on an acyclic filter graph (witnessed by a rank function on the
dependency edges), the block-leveling loop of `RefreshAllFilters` terminates
within `card` iterations with an empty working set, every filter node lands
in exactly one block, every dependency edge goes from a strictly earlier
block to a strictly later one, and the evaluation pass visits blocks strictly
in order of increasing block index. -/
theorem scheduler_levels_acyclic (inputs : Node → List Node) (V : Finset Node)
    (rk : Node → Nat)
    (hrk : ∀ c ∈ V, ∀ i ∈ inputs c, i ∈ V → rk i < rk c) :
    levelRemaining inputs V.card V = ∅ ∧
    (∀ x ∈ V, (levelLoop inputs V.card V).countP (fun b => decide (x ∈ b)) = 1) ∧
    (∀ c i, i ∈ inputs c →
      ∀ (ki kc : Nat) (bi bc : Finset Node),
        (levelLoop inputs V.card V)[ki]? = some bi → i ∈ bi →
        (levelLoop inputs V.card V)[kc]? = some bc → c ∈ bc →
        ki < kc) ∧
    (evalTraceFrom ((levelLoop inputs V.card V).map Finset.toList) 0).Pairwise
      (fun p q => p.1 ≤ q.1) := by
  refine ⟨levelRemaining_empty inputs rk V.card V hrk le_rfl,
    levelLoop_count_one inputs rk V.card V hrk le_rfl,
    fun c i hedge => levelLoop_edge_lt inputs V.card V c i hedge,
    evalTraceFrom_sorted _ 0⟩

/-- C1 witness: the three-node chain `0 → 1 → 2` levels into blocks with
node 1 in exactly one block, via the scheduler theorem. -/
theorem scheduler_levels_acyclic_witness :
    (levelLoop (fun c => match c with | 1 => [0] | 2 => [1] | _ => [])
        (({0, 1, 2} : Finset Nat)).card ({0, 1, 2} : Finset Nat)).countP
      (fun b => decide ((1 : Nat) ∈ b)) = 1 :=
  (scheduler_levels_acyclic (fun c => match c with | 1 => [0] | 2 => [1] | _ => [])
      ({0, 1, 2} : Finset Nat) (fun n => n) (by decide)).2.1 1 (by decide)

/-! ## Trigger coordination (`ArmTrigger`, `OnStop`, `CheckForPendingWaveforms`,
part_001 lines 3009-3074 and 3341-3458)

Instrument I/O is modelled as an explicit event trace.  Each scope carries its
current armed/pending flags (read by `PeekTriggerArmed`/`HasPendingWaveforms`
outside the confirmation loop) plus two oracles describing its asynchronous
behaviour during the arm-confirmation wait loop: `peek k` is the result of the
k-th `PeekTriggerArmed` poll and `ptime k` the wall-clock time of the k-th
`GetTime` call in that loop.  Wall-clock times are rationals (the C++ uses
`double`; only order and differences matter here). -/

/-- Trigger kinds (`TriggerType`). -/
inductive TriggerKind
  | normal
  | auto
  | single
  | forced
deriving DecidableEq, Repr

/-- Commands sent to instruments and log events, tagged with the instrument
index in `m_scopes`.  `startSingle` is `StartSingleTrigger`, `startNormal` is
the free-running `Start`, `forceTrig` is `ForceTrigger`. -/
inductive Ev
  | stop (i : Nat)
  | clearPending (i : Nat)
  | startSingle (i : Nat)
  | startNormal (i : Nat)
  | forceTrig (i : Nat)
  | idping (i : Nat)
  | warnPendingBeforeArm (i : Nat)
  | warnArmTimeout (i : Nat)
  | warnSyncTimeout
  | errAutoNotImplemented
deriving DecidableEq, Repr

/-- Model of one oscilloscope's externally visible state and behaviour. -/
structure ScopeB where
  offline : Bool
  armed : Bool
  pending : Bool
  peek : Nat → Bool
  ptime : Nat → Rat

instance : Inhabited ScopeB := ⟨⟨true, false, false, fun _ => false, fun _ => 0⟩⟩

def getScope (l : List ScopeB) (i : Nat) : ScopeB := l.getD i default

def modifyScope : List ScopeB → Nat → (ScopeB → ScopeB) → List ScopeB
  | [], _, _ => []
  | s :: rest, 0, f => f s :: rest
  | s :: rest, i + 1, f => s :: modifyScope rest i f

/-- `OscilloscopeWindow` members used by the trigger coordinator. -/
structure WinState where
  scopes : List ScopeB
  triggerArmed : Bool
  triggerOneShot : Bool
  multiScopeFreeRun : Bool
  tPrimaryTrigger : Rat
  tArm : Rat

/-- `HasOnlineScopes` (lines 3009-3017): true iff some scope is not offline. -/
def hasOnlineScopes (l : List ScopeB) : Bool := l.any (fun s => !s.offline)

/-- `oneshot` in `ArmTrigger` (line 3357). -/
def isOneShot (ty : TriggerKind) : Bool :=
  decide (ty = TriggerKind.forced) || decide (ty = TriggerKind.single)

/-- The index list `m_scopes.size()-1 ... 0` walked by the arming loops. -/
def revRange (n : Nat) : List Nat := (List.range n).reverse

/-- The arm-confirmation wait loop for secondary instrument `i`
(lines 3436-3450): poll `PeekTriggerArmed`; whenever a poll fails and more
than 3 seconds have elapsed since the window start, log a warning, stop the
instrument, re-issue a single-shot arm and restart the window with the
current time.  The C++ loop has no iteration bound: `fuel` bounds the
modelled polls and `none` means the loop has not terminated within `fuel`
polls.  `k` is the index of the next poll, `start` the current window
start. -/
def confirmLoop (i : Nat) (peek : Nat → Bool) (t : Nat → Rat) :
    Nat → Nat → Rat → Option (List Ev)
  | 0, _, _ => none
  | fuel + 1, k, start =>
    if peek k then some []
    else if t (k + 1) - start > 3 then
      (confirmLoop i peek t fuel (k + 1) (t (k + 1))).map
        (fun evs => Ev.warnArmTimeout i :: Ev.stop i :: Ev.startSingle i :: evs)
    else
      confirmLoop i peek t fuel (k + 1) start

/-- One iteration of the pre-arm cleanup loop (lines 3384-3394): stop the
scope if it reports armed, and clear (with a warning) any pending
waveforms. -/
def preStep (l : List ScopeB) (i : Nat) : List Ev × List ScopeB :=
  let s := getScope l i
  let evs1 : List Ev := if s.armed then [Ev.stop i] else []
  let l1 := if s.armed then modifyScope l i (fun s0 => { s0 with armed := false }) else l
  let s1 := getScope l1 i
  let evs2 : List Ev :=
    if s1.pending then [Ev.warnPendingBeforeArm i, Ev.clearPending i] else []
  let l2 :=
    if s1.pending then modifyScope l1 i (fun s0 => { s0 with pending := false }) else l1
  (evs1 ++ evs2, l2)

/-- The pre-arm cleanup loop (lines 3382-3395), walked over a list of scope
indices. -/
def preLoop : List Nat → List ScopeB → List Ev × List ScopeB
  | [], l => ([], l)
  | i :: rest, l =>
    ((preStep l i).1 ++ (preLoop rest (preStep l i).2).1,
      (preLoop rest (preStep l i).2).2)

/-- The primary-instrument switch of the arming loop (lines 3403-3431). -/
def primaryArm (ty : TriggerKind) (n : Nat) (l : List ScopeB) : List Ev × List ScopeB :=
  match ty with
  | .normal =>
    if n > 1 then
      ([Ev.startSingle 0], modifyScope l 0 (fun s => { s with armed := true }))
    else
      ([Ev.startNormal 0], modifyScope l 0 (fun s => { s with armed := true }))
  | .auto => ([Ev.errAutoNotImplemented], l)
  | .single => ([Ev.startSingle 0], modifyScope l 0 (fun s => { s with armed := true }))
  | .forced => ([Ev.forceTrig 0], modifyScope l 0 (fun s => { s with armed := true }))

/-- One iteration of the arming loop (lines 3397-3455): a secondary gets a
single-shot arm, then the confirmation wait loop, then a pending-queue clear;
the primary gets the kind-dependent arm command. -/
def armStep (ty : TriggerKind) (n fuel : Nat) (l : List ScopeB) (i : Nat) :
    Option (List Ev × List ScopeB) :=
  if i > 0 then
    let s := getScope l i
    match confirmLoop i s.peek s.ptime fuel 0 (s.ptime 0) with
    | none => none
    | some cevs =>
      some (Ev.startSingle i :: (cevs ++ [Ev.clearPending i]),
        modifyScope l i (fun s0 => { s0 with armed := true, pending := false }))
  else
    some (primaryArm ty n l)

/-- The arming loop over a list of scope indices. -/
def armLoop (ty : TriggerKind) (n fuel : Nat) : List Nat → List ScopeB →
    Option (List Ev × List ScopeB)
  | [], l => some ([], l)
  | i :: rest, l =>
    match armStep ty n fuel l i with
    | none => none
    | some (evs, l1) =>
      match armLoop ty n fuel rest l1 with
      | none => none
      | some (evs2, l2) => some (evs ++ evs2, l2)

/-- `ArmTrigger` (lines 3355-3458).  With no online scope it only records the
arm time and sets the armed flag.  Otherwise it resets the primary-trigger
timestamp, enters free-run mode iff the kind is not one-shot and there is
more than one scope, runs the pre-arm cleanup (multi-scope only), then arms
scopes in reverse index order, and finally records the arm time and sets the
armed flag.  `now` is the value of `GetTime` at this call. -/
def armTrigger (ty : TriggerKind) (now : Rat) (fuel : Nat) (st : WinState) :
    Option (List Ev × WinState) :=
  let st1 := { st with triggerOneShot := isOneShot ty }
  if hasOnlineScopes st1.scopes then
    let n := st1.scopes.length
    let st2 := { st1 with
      tPrimaryTrigger := -1
      multiScopeFreeRun := !isOneShot ty && decide (n > 1) }
    let pre := if n > 1 then preLoop (revRange n) st2.scopes else ([], st2.scopes)
    match armLoop ty n fuel (revRange n) pre.2 with
    | none => none
    | some (evs2, l2) =>
      some (pre.1 ++ evs2,
        { st2 with scopes := l2, tArm := now, triggerArmed := true })
  else
    some ([], { st1 with tArm := now, triggerArmed := true })

/-- The per-scope body of `OnStop` (lines 3346-3352): stop every scope and
discard its pending waveforms. -/
def stopAll : List Nat → List ScopeB → List Ev × List ScopeB
  | [], l => ([], l)
  | i :: rest, l =>
    let l2 := modifyScope (modifyScope l i (fun s => { s with armed := false })) i
      (fun s => { s with pending := false })
    (Ev.stop i :: Ev.clearPending i :: (stopAll rest l2).1, (stopAll rest l2).2)

/-- `OnStop` (lines 3341-3353). -/
def onStop (st : WinState) : List Ev × WinState :=
  (  (stopAll (List.range st.scopes.length) st.scopes).1,
    { st with
      multiScopeFreeRun := false
      triggerArmed := false
      scopes := (stopAll (List.range st.scopes.length) st.scopes).2 })

/-- The fault-path cleanup loop of `CheckForPendingWaveforms`
(lines 3056-3064): ping and clear every online scope. -/
def faultClear : List Nat → List ScopeB → List Ev × List ScopeB
  | [], l => ([], l)
  | i :: rest, l =>
    if (getScope l i).offline then faultClear rest l
    else
      let l1 := modifyScope l i (fun s => { s with pending := false })
      (Ev.idping i :: Ev.clearPending i :: (faultClear rest l1).1,
        (faultClear rest l1).2)

/-- The readiness loop (lines 3029-3035): scan scopes in index order,
skipping offline instruments and querying `HasPendingWaveforms` on the rest;
return at the first online instrument with no pending data.  Yields the list
of queried indices and whether every online instrument had pending data. -/
def pendingScan : List ScopeB → Nat → List Nat × Bool
  | [], _ => ([], true)
  | s :: rest, i =>
    if s.offline then pendingScan rest (i + 1)
    else if s.pending then
      ((i :: (pendingScan rest (i + 1)).1), (pendingScan rest (i + 1)).2)
    else ([i], false)

/-- `CheckForPendingWaveforms` (lines 3022-3074).  Returns the boolean result
together with the emitted events, the indices whose `HasPendingWaveforms` was
queried, and the updated window state; `none` only when the nested re-arm of
the fault path runs out of confirmation fuel.  With no online scope the
result is the armed flag and nothing is queried.  Otherwise, if any online
scope lacks pending data the check returns false immediately.  Only then, in
free-run mode, the primary-trigger timestamp is recorded, and if it is
positive and more than 1 second old the fault path fires: warn, `OnStop`,
ping-and-clear every online scope, re-arm with kind `normal`, return
false. -/
def checkForPendingWaveforms (now : Rat) (fuel : Nat) (st : WinState) :
    Option (Bool × List Ev × List Nat × WinState) :=
  if hasOnlineScopes st.scopes then
    match pendingScan st.scopes 0 with
    | (qs, false) => some (false, [], qs, st)
    | (qs, true) =>
      if st.multiScopeFreeRun then
        let qs2 := if st.tPrimaryTrigger < 0 then qs ++ [0] else qs
        let st2 :=
          if st.tPrimaryTrigger < 0 ∧ (getScope st.scopes 0).pending then
            { st with tPrimaryTrigger := now }
          else st
        if st2.tPrimaryTrigger > 0 ∧ now - st2.tPrimaryTrigger > 1 then
          match armTrigger TriggerKind.normal now fuel
            { (onStop st2).2 with
              scopes := (faultClear (List.range (onStop st2).2.scopes.length)
                (onStop st2).2.scopes).2 } with
          | none => none
          | some (evs3, st5) =>
            some (false,
              Ev.warnSyncTimeout :: ((onStop st2).1 ++
                (faultClear (List.range (onStop st2).2.scopes.length)
                  (onStop st2).2.scopes).1 ++ evs3),
              qs2, st5)
        else some (true, [], qs2, st2)
      else some (true, [], qs, st)
  else some (st.triggerArmed, [], [], st)

/-! ### Trigger coordination theorems -/

/-- C2 failing input: two online scopes in free-run mode; the primary was
recorded pending at time 5 (`m_tPrimaryTrigger = 5`), instrument 1 still has
no pending data at time 7. -/
def c2Scopes : List ScopeB :=
  [{ offline := false, armed := false, pending := true,
     peek := fun _ => true, ptime := fun _ => 0 },
   { offline := false, armed := false, pending := false,
     peek := fun _ => true, ptime := fun _ => 0 }]

/-- C2 failing window state. -/
def c2St : WinState :=
  { scopes := c2Scopes, triggerArmed := true, triggerOneShot := false,
    multiScopeFreeRun := true, tPrimaryTrigger := 5, tArm := 0 }

/-- C2: at a poll where primary instrument 0 has had pending data since time
5 and online instrument 1 still has none at time 7 — more than one second
later — `CheckForPendingWaveforms` merely returns false with no event: no
stop, no clear, no re-arm, state unchanged.  The readiness loop at lines
3029-3035 returns before the fault-timeout logic of lines 3038-3069 is ever
reached, so the claimed fault recovery cannot fire in this scenario. -/
theorem fault_window_not_triggered :
    checkForPendingWaveforms 7 1 c2St = some (false, [], [0, 1], c2St) := rfl

/-- C10: with no online instrument, the readiness check queries nobody and
returns exactly the trigger-armed flag with no event and no state change, and
arming issues no instrument command while still recording the arm timestamp
and setting the armed flag (and the one-shot flag per the requested kind). -/
theorem offline_poll_and_arm (st : WinState) (now : Rat) (fuel : Nat)
    (ty : TriggerKind) (hoff : ∀ s ∈ st.scopes, s.offline = true) :
    checkForPendingWaveforms now fuel st = some (st.triggerArmed, [], [], st) ∧
    armTrigger ty now fuel st =
      some ([], { st with
                  triggerOneShot := isOneShot ty
                  tArm := now
                  triggerArmed := true }) := by
  have hno : hasOnlineScopes st.scopes = false := by
    simp only [hasOnlineScopes, List.any_eq_false]
    intro s hs
    simp [hoff s hs]
  constructor
  · simp [checkForPendingWaveforms, hno]
  · simp [armTrigger, hno]

/-- C10 witness input: a single offline scope. -/
def c10St : WinState :=
  { scopes := [{ offline := true
                 armed := false
                 pending := false
                 peek := fun _ => false
                 ptime := fun _ => 0 }]
    triggerArmed := false
    triggerOneShot := false
    multiScopeFreeRun := false
    tPrimaryTrigger := -1
    tArm := 0 }

/-- C10 witness: with the single offline scope, polling returns the (false)
armed flag without events or queries. -/
theorem offline_poll_and_arm_witness :
    checkForPendingWaveforms 2 0 c10St = some (c10St.triggerArmed, [], [], c10St) :=
  (offline_poll_and_arm c10St 2 0 TriggerKind.normal
    (by
      intro s hs
      simp only [c10St] at hs
      rw [List.mem_singleton] at hs
      subst hs
      rfl)).1

theorem confirmLoop_succ (i : Nat) (peek : Nat → Bool) (t : Nat → Rat)
    (fuel k : Nat) (start : Rat) :
    confirmLoop i peek t (fuel + 1) k start =
      if peek k then some []
      else if t (k + 1) - start > 3 then
        (confirmLoop i peek t fuel (k + 1) (t (k + 1))).map
          (fun evs => Ev.warnArmTimeout i :: Ev.stop i :: Ev.startSingle i :: evs)
      else confirmLoop i peek t fuel (k + 1) start := rfl

theorem isSome_map_ev (f : List Ev → List Ev) (o : Option (List Ev)) :
    (o.map f).isSome = o.isSome := by cases o <;> rfl

/-- A secondary whose armed flag never reads true keeps the confirmation
loop running: no fuel suffices. -/
theorem confirmLoop_none_of_never (i : Nat) (t : Nat → Rat) :
    ∀ (fuel k : Nat) (start : Rat),
      confirmLoop i (fun _ => false) t fuel k start = none := by
  intro fuel
  induction fuel with
  | zero => intro k start; rfl
  | succ fuel ih =>
    intro k start
    rw [confirmLoop_succ, if_neg (by simp)]
    by_cases ht : t (k + 1) - start > 3
    · rw [if_pos ht, ih]
      rfl
    · rw [if_neg ht]
      exact ih _ _

/-- Termination of the arm-confirmation loop, as a proposition: some poll
bound makes it return. -/
def confirmTerminates (i : Nat) (peek : Nat → Bool) (t : Nat → Rat) (start : Rat) : Prop :=
  ∃ fuel, (confirmLoop i peek t fuel 0 start).isSome = true

/-- C4 as stated is false: for the concrete secondary whose armed-state flag
never becomes true (polls every 4 seconds, so every window times out), the
arm-confirmation step never terminates — the retry loop is indefinite, not
bounded. -/
theorem arm_confirm_unbounded_cex :
    ¬ confirmTerminates 1 (fun _ => false) (fun m => (4 : Rat) * (m : Rat)) 0 := by
  rintro ⟨fuel, hf⟩
  rw [confirmLoop_none_of_never] at hf
  simp at hf

theorem confirmLoop_isSome_peek (i : Nat) (peek : Nat → Bool) (t : Nat → Rat) :
    ∀ (fuel k : Nat) (start : Rat),
      (confirmLoop i peek t fuel k start).isSome = true → ∃ m, peek m = true := by
  intro fuel
  induction fuel with
  | zero => intro k start h; simp [confirmLoop] at h
  | succ fuel ih =>
    intro k start h
    by_cases hp : peek k = true
    · exact ⟨k, hp⟩
    · rw [confirmLoop_succ, if_neg hp] at h
      by_cases ht : t (k + 1) - start > 3
      · rw [if_pos ht, isSome_map_ev] at h
        exact ih _ _ h
      · rw [if_neg ht] at h
        exact ih _ _ h

theorem confirmLoop_isSome_of_peek (i : Nat) (peek : Nat → Bool) (t : Nat → Rat) :
    ∀ (m k : Nat) (start : Rat), peek (k + m) = true →
      (confirmLoop i peek t (m + 1) k start).isSome = true := by
  intro m
  induction m with
  | zero =>
    intro k start h
    rw [Nat.add_zero] at h
    simp [confirmLoop, h]
  | succ m ih =>
    intro k start h
    by_cases hp : peek k = true
    · rw [confirmLoop_succ, if_pos hp]
      rfl
    · have h2 : peek (k + 1 + m) = true := by
        rw [show k + 1 + m = k + (m + 1) by omega]
        exact h
      rw [confirmLoop_succ, if_neg hp]
      by_cases ht : t (k + 1) - start > 3
      · rw [if_pos ht, isSome_map_ev]
        exact ih (k + 1) _ h2
      · rw [if_neg ht]
        exact ih (k + 1) _ h2

/-- C4 (amended): the per-secondary arm-confirmation step polls the
armed-state flag; on a failed poll past the 3-second window it logs a
warning, stops and re-single-shot-arms that instrument and restarts the
window with the current time; and the loop terminates precisely when some
poll reports the flag true — for an instrument whose flag never reads true
it spins indefinitely (the retry is unbounded). -/
theorem arm_confirm_retry (i : Nat) (peek : Nat → Bool) (t : Nat → Rat) :
    (∀ (fuel k : Nat) (start : Rat), peek k = false → t (k + 1) - start > 3 →
      confirmLoop i peek t (fuel + 1) k start =
        (confirmLoop i peek t fuel (k + 1) (t (k + 1))).map
          (fun evs => Ev.warnArmTimeout i :: Ev.stop i :: Ev.startSingle i :: evs)) ∧
    (∀ start : Rat,
      (∃ fuel, (confirmLoop i peek t fuel 0 start).isSome = true) ↔
        ∃ k, peek k = true) := by
  constructor
  · intro fuel k start hpk ht
    rw [confirmLoop_succ, if_neg (by rw [hpk]; simp), if_pos ht]
  · intro start
    constructor
    · rintro ⟨fuel, hf⟩
      exact confirmLoop_isSome_peek i peek t fuel 0 start hf
    · rintro ⟨k, hk⟩
      refine ⟨k + 1, confirmLoop_isSome_of_peek i peek t k 0 start ?_⟩
      rw [Nat.zero_add]
      exact hk

/-- C4 amended-claim witness: a secondary that first reports armed on poll 1
makes the loop terminate, and on a timed-out poll the loop emits the warning,
stop and re-arm and restarts the window. -/
theorem arm_confirm_retry_witness :
    (∃ fuel, (confirmLoop 1 (fun m => decide (1 ≤ m)) (fun _ => 0) fuel 0
      0).isSome = true) ∧
    confirmLoop 1 (fun _ => false) (fun m => (4 : Rat) * (m : Rat)) 1 0 0 =
      (confirmLoop 1 (fun _ => false) (fun m => (4 : Rat) * (m : Rat)) 0 1
          ((4 : Rat) * ((1 : Nat) : Rat))).map
        (fun evs => Ev.warnArmTimeout 1 :: Ev.stop 1 :: Ev.startSingle 1 :: evs) :=
  ⟨((arm_confirm_retry 1 (fun m => decide (1 ≤ m)) (fun _ => 0)).2 0).mpr
      ⟨1, by decide⟩,
    (arm_confirm_retry 1 (fun _ => false) (fun m => (4 : Rat) * (m : Rat))).1 0 0 0
      (by decide) (by norm_num)⟩

/-- Arm commands: the three instrument calls that start an acquisition. -/
def isArmEv : Ev → Bool
  | .startSingle _ => true
  | .startNormal _ => true
  | .forceTrig _ => true
  | _ => false

/-- Two scope lists agreeing on length and on every scope's confirmation
oracles (`peek`/`ptime`); all state updates of the coordinator only touch the
armed/pending flags, so they preserve this. -/
def sameBehaviour (l1 l2 : List ScopeB) : Prop :=
  l2.length = l1.length ∧
  ∀ j, (getScope l2 j).peek = (getScope l1 j).peek ∧
    (getScope l2 j).ptime = (getScope l1 j).ptime

theorem sameBehaviour_refl (l : List ScopeB) : sameBehaviour l l :=
  ⟨rfl, fun _ => ⟨rfl, rfl⟩⟩

theorem sameBehaviour_trans {l1 l2 l3 : List ScopeB}
    (h12 : sameBehaviour l1 l2) (h23 : sameBehaviour l2 l3) :
    sameBehaviour l1 l3 := by
  refine ⟨h23.1.trans h12.1, fun j => ?_⟩
  obtain ⟨p12, t12⟩ := h12.2 j
  obtain ⟨p23, t23⟩ := h23.2 j
  exact ⟨p23.trans p12, t23.trans t12⟩

theorem getScope_cons_succ (s : ScopeB) (l : List ScopeB) (j : Nat) :
    getScope (s :: l) (j + 1) = getScope l j := by
  simp [getScope]

theorem modifyScope_behaviour (f : ScopeB → ScopeB)
    (hf : ∀ s, (f s).peek = s.peek ∧ (f s).ptime = s.ptime) :
    ∀ (l : List ScopeB) (i : Nat), sameBehaviour l (modifyScope l i f) := by
  intro l
  induction l with
  | nil => intro i; exact sameBehaviour_refl []
  | cons s rest ih =>
    intro i
    cases i with
    | zero =>
      refine ⟨rfl, fun j => ?_⟩
      cases j with
      | zero => exact ⟨(hf s).1, (hf s).2⟩
      | succ j => exact ⟨rfl, rfl⟩
    | succ i =>
      obtain ⟨hl, hj⟩ := ih i
      refine ⟨?_, fun j => ?_⟩
      · simp only [modifyScope, List.length_cons, hl]
      · cases j with
        | zero => exact ⟨rfl, rfl⟩
        | succ j =>
          rw [show modifyScope (s :: rest) (i + 1) f = s :: modifyScope rest i f from rfl,
            getScope_cons_succ, getScope_cons_succ]
          exact hj j

theorem preStep_behaviour (l : List ScopeB) (i : Nat) :
    sameBehaviour l (preStep l i).2 := by
  have hb1 := modifyScope_behaviour (fun s0 => { s0 with armed := false })
    (fun s => ⟨rfl, rfl⟩) l i
  simp only [preStep]
  split_ifs with h1 h2 h3
  · exact sameBehaviour_trans hb1
      (modifyScope_behaviour (fun s0 => { s0 with pending := false })
        (fun s => ⟨rfl, rfl⟩) _ i)
  · exact hb1
  · exact modifyScope_behaviour (fun s0 => { s0 with pending := false })
      (fun s => ⟨rfl, rfl⟩) l i
  · exact sameBehaviour_refl l

theorem preLoop_behaviour : ∀ (is : List Nat) (l : List ScopeB),
    sameBehaviour l (preLoop is l).2 := by
  intro is
  induction is with
  | nil => intro l; exact sameBehaviour_refl l
  | cons i rest ih =>
    intro l
    exact sameBehaviour_trans (preStep_behaviour l i) (ih (preStep l i).2)

theorem preStep_no_arm (l : List ScopeB) (i : Nat) :
    ((preStep l i).1).filter isArmEv = [] := by
  simp only [preStep]
  split_ifs <;> rfl

theorem preLoop_no_arm : ∀ (is : List Nat) (l : List ScopeB),
    ((preLoop is l).1).filter isArmEv = [] := by
  intro is
  induction is with
  | nil => intro l; rfl
  | cons i rest ih =>
    intro l
    simp only [preLoop, List.filter_append, preStep_no_arm, ih, List.nil_append]

/-- The events the arming loop emits for index `i` when the confirmation
succeeds on the first poll. -/
def armEvExpected (i : Nat) : List Ev :=
  if i = 0 then [Ev.startSingle 0] else [Ev.startSingle i, Ev.clearPending i]

theorem filter_armEvExpected : ∀ is : List Nat,
    ((is.flatMap armEvExpected).filter isArmEv) = is.map Ev.startSingle := by
  intro is
  induction is with
  | nil => rfl
  | cons i rest ih =>
    simp only [List.flatMap_cons, List.filter_append, ih, List.map_cons]
    by_cases h : i = 0
    · subst h
      rfl
    · rw [armEvExpected, if_neg h]
      rfl

theorem armLoop_normal_multi (n fuel : Nat) (hn : 1 < n) :
    ∀ (is : List Nat) (l : List ScopeB),
      (∀ i ∈ is, 1 ≤ i → (getScope l i).peek 0 = true) →
      ∃ l2, armLoop TriggerKind.normal n (fuel + 1) is l =
        some (is.flatMap armEvExpected, l2) ∧ sameBehaviour l l2 := by
  intro is
  induction is with
  | nil => intro l _; exact ⟨l, rfl, sameBehaviour_refl l⟩
  | cons i rest ih =>
    intro l hp
    cases i with
    | zero =>
      have hstep : armStep TriggerKind.normal n (fuel + 1) l 0 =
          some ([Ev.startSingle 0],
            modifyScope l 0 (fun s => { s with armed := true })) := by
        simp [armStep, primaryArm, hn]
      have hbe : sameBehaviour l (modifyScope l 0 (fun s => { s with armed := true })) :=
        modifyScope_behaviour (fun s => { s with armed := true }) (fun s => ⟨rfl, rfl⟩) l 0
      have hp2 : ∀ i ∈ rest, 1 ≤ i →
          (getScope (modifyScope l 0 (fun s => { s with armed := true })) i).peek 0 = true := by
        intro i hi h1
        rw [(hbe.2 i).1]
        exact hp i (List.mem_cons_of_mem _ hi) h1
      obtain ⟨l2, harm, hbe2⟩ := ih _ hp2
      refine ⟨l2, ?_, sameBehaviour_trans hbe hbe2⟩
      simp only [armLoop, hstep, harm, List.flatMap_cons]
      rfl
    | succ i0 =>
      have hpk : (getScope l (i0 + 1)).peek 0 = true :=
        hp (i0 + 1) (List.mem_cons_self _ _) (by omega)
      have hconf : confirmLoop (i0 + 1) (getScope l (i0 + 1)).peek
          (getScope l (i0 + 1)).ptime (fuel + 1) 0 ((getScope l (i0 + 1)).ptime 0) =
          some [] := by
        rw [confirmLoop_succ, if_pos hpk]
      have hstep : armStep TriggerKind.normal n (fuel + 1) l (i0 + 1) =
          some ([Ev.startSingle (i0 + 1), Ev.clearPending (i0 + 1)],
            modifyScope l (i0 + 1) (fun s0 => { s0 with armed := true, pending := false })) := by
        simp [armStep, hconf]
      have hbe : sameBehaviour l (modifyScope l (i0 + 1)
          (fun s0 => { s0 with armed := true, pending := false })) :=
        modifyScope_behaviour (fun s0 => { s0 with armed := true, pending := false })
          (fun s => ⟨rfl, rfl⟩) l (i0 + 1)
      have hp2 : ∀ i ∈ rest, 1 ≤ i →
          (getScope (modifyScope l (i0 + 1)
            (fun s0 => { s0 with armed := true, pending := false })) i).peek 0 = true := by
        intro i hi h1
        rw [(hbe.2 i).1]
        exact hp i (List.mem_cons_of_mem _ hi) h1
      obtain ⟨l2, harm, hbe2⟩ := ih _ hp2
      refine ⟨l2, ?_, sameBehaviour_trans hbe hbe2⟩
      simp only [armLoop, hstep, harm, List.flatMap_cons]
      rfl

/-- C3 (amended): arming more than one online instrument with kind `NORMAL`
(each secondary confirming on its first poll) issues its trigger-arming
commands in exactly the order `StartSingleTrigger(N-1), ...,
StartSingleTrigger(1), StartSingleTrigger(0)`: single-shot arms to the
secondaries in reverse index order, before any arming command reaches
instrument 0; instrument 0 is then armed single-shot, never with the
free-running `Start`, and free-run mode is entered.  (Non-arming cleanup
commands — a stop or pending-queue clear for an instrument that was already
armed or had stale data — may precede these, which is the sole amendment to
the claim.) -/
theorem arm_normal_multi_reverse (st : WinState) (now : Rat) (fuel : Nat)
    (hn : 1 < st.scopes.length)
    (honline : hasOnlineScopes st.scopes = true)
    (hpeek : ∀ i, 1 ≤ i → i < st.scopes.length → (getScope st.scopes i).peek 0 = true) :
    ∃ evs st2, armTrigger TriggerKind.normal now (fuel + 1) st = some (evs, st2) ∧
      evs.filter isArmEv = (revRange st.scopes.length).map Ev.startSingle ∧
      st2.multiScopeFreeRun = true ∧
      st2.triggerArmed = true ∧
      Ev.startNormal 0 ∉ evs := by
  have hpre := preLoop_behaviour (revRange st.scopes.length) st.scopes
  have hp2 : ∀ i ∈ revRange st.scopes.length, 1 ≤ i →
      (getScope (preLoop (revRange st.scopes.length) st.scopes).2 i).peek 0 = true := by
    intro i hi h1
    rw [(hpre.2 i).1]
    have : i < st.scopes.length := by
      rw [revRange, List.mem_reverse] at hi
      exact List.mem_range.mp hi
    exact hpeek i h1 this
  obtain ⟨l2, harm, -⟩ := armLoop_normal_multi st.scopes.length fuel hn
    (revRange st.scopes.length) _ hp2
  refine ⟨(preLoop (revRange st.scopes.length) st.scopes).1 ++
      (revRange st.scopes.length).flatMap armEvExpected,
    { st with
      triggerOneShot := isOneShot TriggerKind.normal
      tPrimaryTrigger := -1
      multiScopeFreeRun := !isOneShot TriggerKind.normal &&
        decide (st.scopes.length > 1)
      scopes := l2
      tArm := now
      triggerArmed := true }, ?_, ?_, ?_, ?_, ?_⟩
  · simp only [armTrigger]
    split_ifs
    simp only [harm]
  · rw [List.filter_append, preLoop_no_arm, filter_armEvExpected, List.nil_append]
  · simp [isOneShot, hn]
  · rfl
  · intro hmem
    have hfil : Ev.startNormal 0 ∈
        ((preLoop (revRange st.scopes.length) st.scopes).1 ++
          (revRange st.scopes.length).flatMap armEvExpected).filter isArmEv :=
      List.mem_filter.mpr ⟨hmem, rfl⟩
    rw [List.filter_append, preLoop_no_arm, filter_armEvExpected,
      List.nil_append] at hfil
    obtain ⟨a, -, ha⟩ := List.mem_map.mp hfil
    exact Ev.noConfusion ha

/-- C3 counterexample input: two online scopes, instrument 0 already armed,
instrument 1 idle and confirming on its first poll. -/
def c3Scopes : List ScopeB :=
  [{ offline := false, armed := true, pending := false,
     peek := fun _ => true, ptime := fun _ => 0 },
   { offline := false, armed := false, pending := false,
     peek := fun _ => true, ptime := fun _ => 0 }]

/-- C3 counterexample window state. -/
def c3St : WinState :=
  { scopes := c3Scopes, triggerArmed := false, triggerOneShot := false,
    multiScopeFreeRun := false, tPrimaryTrigger := -1, tArm := 0 }

/-- C3 as stated is false: with instrument 0 already armed, `ArmTrigger`
issues `Stop` to instrument 0 (pre-arm cleanup, lines 3384-3394) before the
single-shot arm of secondary instrument 1 — a command reaches instrument 0
before the secondaries are armed. -/
theorem arm_cmd_to_primary_first_cex :
    (armTrigger TriggerKind.normal 0 1 c3St).map Prod.fst =
      some [Ev.stop 0, Ev.startSingle 1, Ev.clearPending 1, Ev.startSingle 0] := rfl

/-- C3 witness input: two online scopes, neither armed nor pending, both
confirming on the first poll. -/
def c3wSt : WinState :=
  { scopes :=
      [{ offline := false, armed := false, pending := false,
         peek := fun _ => true, ptime := fun _ => 0 },
       { offline := false, armed := false, pending := false,
         peek := fun _ => true, ptime := fun _ => 0 }],
    triggerArmed := false, triggerOneShot := false,
    multiScopeFreeRun := false, tPrimaryTrigger := -1, tArm := 0 }

/-- C3 amended-claim witness at the concrete two-scope state. -/
theorem arm_normal_multi_reverse_witness :
    ∃ evs st2, armTrigger TriggerKind.normal 0 (0 + 1) c3wSt = some (evs, st2) ∧
      evs.filter isArmEv = (revRange c3wSt.scopes.length).map Ev.startSingle ∧
      st2.multiScopeFreeRun = true ∧
      st2.triggerArmed = true ∧
      Ev.startNormal 0 ∉ evs :=
  arm_normal_multi_reverse c3wSt 0 0 (by decide) rfl
    (by
      intro i h1 h2
      have hi : i = 1 := by
        simp only [c3wSt] at h2
        simp at h2
        omega
      subst hi
      rfl)

/-! ## Per-channel waveform loading (`DoLoadWaveformDataForScope` control
flow, lines 1459-1599, and the progress-aggregation loop of
`LoadWaveformDataForScope`, lines 1364-1393) -/

/-- Outcome of one per-channel loader thread: whether it set its completion
flag (`*done = 1`, line 1598) and the waveform it decoded (`none` = left
empty). -/
structure LoadOutcome where
  done : Bool
  wave : Option Waveform
deriving Repr, DecidableEq

/-- Control flow of `DoLoadWaveformDataForScope` after metadata setup.
`openResult` is the byte buffer when the body file opened, `none` when the
open failed (lines 1464-1469 Windows, 1495-1500 POSIX): in that case the
function logs an error and returns immediately — before the `*done = 1` at
line 1598 — leaving the completion flag clear and the waveform empty.  An
unknown format tag only logs (lines 1584-1589) and falls through to the end,
so it completes with the waveform left empty. -/
def doLoadChannel (openResult : Option (List Nat)) (analog : Bool)
    (format : String) : LoadOutcome :=
  match openResult with
  | none => { done := false, wave := none }
  | some buf =>
    if format = "sparsev1" then
      { done := true, wave := some (decodeSparse analog buf) }
    else if format = "densev1" then
      { done := true, wave := some (decodeDense analog buf) }
    else
      { done := true, wave := none }

/-- The progress-aggregation loop of `LoadWaveformDataForScope`
(lines 1364-1393): each iteration scans every channel's done flag and exits
only when all are set.  The flags are written once by the loader threads, so
across iterations the list is constant.  Returns the number of polls before
exit, `none` if the loop has not exited within `fuel` polls. -/
def progressPollLoop (dones : List Bool) : Nat → Option Nat
  | 0 => none
  | fuel + 1 =>
    if dones.all (fun d => d) then some 0
    else (progressPollLoop dones fuel).map (fun m => m + 1)

/-- C8: the code contradicts the recoverable-error contract.  A channel whose
body file fails to open logs and returns with its waveform empty but without
signalling completion, so the progress-aggregation loop polling the done
flags never exits, for any number of polls — loading does not run to
completion.  By contrast an unknown format tag (and any channel whose file
opens) does signal completion, and once every loader has signalled, the loop
exits on the next poll. -/
theorem load_missing_file_never_completes :
    (doLoadChannel none true "sparsev1").done = false ∧
    (doLoadChannel none true "sparsev1").wave = none ∧
    (∀ fuel, progressPollLoop
      [(doLoadChannel none true "sparsev1").done,
        (doLoadChannel (some []) true "sparsev1").done] fuel = none) ∧
    (doLoadChannel (some [1]) true "unknownfmt").done = true ∧
    (doLoadChannel (some [1]) true "unknownfmt").wave = none ∧
    progressPollLoop [(doLoadChannel (some []) true "sparsev1").done] 1 = some 0 := by
  refine ⟨rfl, rfl, ?_, rfl, rfl, rfl⟩
  intro fuel
  induction fuel with
  | zero => rfl
  | succ fuel ih =>
    simp only [progressPollLoop]
    rw [if_neg (by decide), ih]
    rfl

end GlScope
